import Mathlib

/-!
Shallow embedding of `src/include/bitfield.h`, a C header of bit-manipulation
macros over unsigned integers of declared width `W ∈ {8, 16, 32, 64}` bits.

A bitfield value of declared width `W` is modelled as a `Nat` below `2 ^ W`.
C integer promotion lifts every operand to 64 bits before the bitwise
operation; the assignment back into the width-`W` variable truncates, which the
embedding makes explicit as `% 2 ^ W`.  The 64-bit complement `~x` of C is
`(2 ^ 64 - 1) ^^^ x`.
-/

/-- C macro `BIT(i)`: `((bit64_t)1 << ((bit64_t)(i) % 64))` — the 64-bit value
with the single bit `i % 64` set.  The shift amount is reduced modulo 64, so
the 64-bit shift is always defined and the result is below `2 ^ 64`. -/
def BIT (i : Nat) : Nat := 1 <<< (i % 64)

/-- C macro `SETBIT(bf, i)`: `(bf) |= (BIT(i))` on an operand of declared
width `W`; the promoted 64-bit OR is truncated back to `W` bits on
assignment. -/
def SETBIT (W bf i : Nat) : Nat := (bf ||| BIT i) % 2 ^ W

/-- C macro `NULLBIT(bf, i)`: `(bf) &= ~(BIT(i))`; the complement is taken in
the 64-bit type of `BIT(i)`, and the assignment truncates to `W` bits. -/
def NULLBIT (W bf i : Nat) : Nat := (bf &&& ((2 ^ 64 - 1) ^^^ BIT i)) % 2 ^ W

/-- C macro `CLEARBIT(bf, i)`: alias for `NULLBIT(bf, i)`. -/
def CLEARBIT (W bf i : Nat) : Nat := NULLBIT W bf i

/-- C macro `TOGGLEBIT(bf, i)`: `(bf) ^= (BIT(i))`, truncated to `W` bits on
assignment. -/
def TOGGLEBIT (W bf i : Nat) : Nat := (bf ^^^ BIT i) % 2 ^ W

/-- C macro `ISSET(bf, i)`: `((bf) & (BIT(i))) != 0`; the operand is promoted
to 64 bits, so no truncation occurs. -/
def ISSET (bf i : Nat) : Bool := (bf &&& BIT i) != 0

/-- C macro `ISNULL(bf, i)`: `((bf) & (BIT(i))) == 0`. -/
def ISNULL (bf i : Nat) : Bool := (bf &&& BIT i) == 0

/-- C macro `GETBIT(bf, i)`: `ISSET(bf, i) ? 1 : 0`. -/
def GETBIT (bf i : Nat) : Nat := if ISSET bf i then 1 else 0

/-- Binary digit sum of the low `f` bits of `v`: the loop-free form of the
population count that `__builtin_popcount` / `__builtin_popcountll`
compute on a value of at most `f` bits. -/
def onesAux : Nat → Nat → Nat
  | 0, _ => 0
  | f + 1, v => v % 2 + onesAux f (v / 2)

/-- C macro `ONES(bf)`: the compiler builtin population count of the operand
cast to its declared width.  Every declared width is at most 64 bits, so for
a value below `2 ^ 64` the count is the digit sum of its 64 binary digits. -/
def ONES (v : Nat) : Nat := onesAux 64 v

/-- C macro `ZEROS(bf)`: `(sizeof(bf) * 8) - ONES(bf)` where
`sizeof(bf) * 8` is the declared width `W`. -/
def ZEROS (W v : Nat) : Nat := W - ONES v

/-- C macro `BITS(bf, rval_cptr)`: starting from 0, for each character of the
string left to right, shift the width-`W` accumulator left by one (truncating
on assignment) and OR in 1 exactly when the character is `'1'`. -/
def BITS (W : Nat) (s : List Char) : Nat :=
  s.foldl (fun bf c => (((bf <<< 1) % 2 ^ W) ||| (if c = '1' then 1 else 0)) % 2 ^ W) 0

/-- C macro `BITMASK(n)`: `(((bit64_t)1 << (n)) - 1)`, the 64-bit value with
the low `n` bits set.  The C shift is defined only for `n ≤ 63`; the embedding
is stated on that domain. -/
def BITMASK (n : Nat) : Nat := (1 <<< n) - 1

/-- C macro `GETBITS(bf, start, len)`: `(((bf) >> (start)) & BITMASK(len))`;
the result has the 64-bit type of the mask. -/
def GETBITS (bf start len : Nat) : Nat := (bf >>> start) &&& BITMASK len

/-- C macro `SETBITS(bf, start, len, val)`:
`(bf) = ((bf) & ~(BITMASK(len) << (start))) | (((val) & BITMASK(len)) << (start))`.
The two shifts happen in the 64-bit type (hence `% 2 ^ 64`), the complement is
the 64-bit one, and the assignment truncates to the declared width `W`. -/
def SETBITS (W bf start len v : Nat) : Nat :=
  ((bf &&& ((2 ^ 64 - 1) ^^^ (BITMASK len <<< start) % 2 ^ 64)) |||
    ((v &&& BITMASK len) <<< start) % 2 ^ 64) % 2 ^ W

/-- C macro `CLEARBITS(bf, start, len)`:
`(bf) &= ~(BITMASK(len) << (start))`, truncated to `W` bits on assignment. -/
def CLEARBITS (W bf start len : Nat) : Nat :=
  (bf &&& ((2 ^ 64 - 1) ^^^ (BITMASK len <<< start) % 2 ^ 64)) % 2 ^ W

/-! ### Helper lemmas -/

theorem BIT_eq_pow (i : Nat) : BIT i = 2 ^ (i % 64) := by
  simp [BIT, Nat.shiftLeft_eq]

theorem BIT_lt (i : Nat) : BIT i < 2 ^ 64 := by
  rw [BIT_eq_pow]
  exact Nat.pow_lt_pow_right (by norm_num) (Nat.mod_lt _ (by norm_num))

theorem testBit_BIT (i j : Nat) : (BIT i).testBit j = decide (i % 64 = j) := by
  rw [BIT_eq_pow, Nat.testBit_two_pow]

theorem testBit_of_lt_width {bf W j : Nat} (h : bf < 2 ^ W) (hj : W ≤ j) :
    bf.testBit j = false :=
  Nat.testBit_eq_false_of_lt (lt_of_lt_of_le h (Nat.pow_le_pow_right (by norm_num) hj))

theorem BITMASK_eq (n : Nat) : BITMASK n = 2 ^ n - 1 := by
  simp [BITMASK, Nat.shiftLeft_eq]

theorem testBit_BITMASK (n j : Nat) : (BITMASK n).testBit j = decide (j < n) := by
  rw [BITMASK_eq]
  exact Nat.testBit_two_pow_sub_one n j

/-! ### Claims -/

/-- C2: for every non-negative index `i`, `Bit(i)` equals `Bit(i mod 64)`;
equivalently, `Bit(i)` is the 64-bit unsigned value `2 ^ (i mod 64)`, a total
function defined for every index. -/
theorem C2_bit_wraparound (i : Nat) :
    BIT i = BIT (i % 64) ∧ BIT i = 2 ^ (i % 64) ∧ BIT i < 2 ^ 64 := by
  refine ⟨?_, BIT_eq_pow i, BIT_lt i⟩
  rw [BIT_eq_pow, BIT_eq_pow, Nat.mod_mod_of_dvd]
  exact dvd_refl 64

/-- C10: for every bitfield, start and length, `ClearBits(bf, start, len)`
produces exactly the same value as `SetBits(bf, start, len, 0)`. -/
theorem C10_clearbits_eq_setbits_zero (W bf start len : Nat) :
    CLEARBITS W bf start len = SETBITS W bf start len 0 := by
  simp [CLEARBITS, SETBITS, Nat.zero_and, Nat.zero_shiftLeft]

/-- C7: for every bitfield `bf` of a declared width `W`, start below `W` and
length at most 63, `GetBits(bf, start, len)` equals `bf` shifted right by
`start` and masked with the low-`len`-bits mask `Mask(len) = 2 ^ len - 1`;
in particular `GetBits(0b11010110, 1, 4) = 0b1011`. -/
theorem C7_getbits (W bf start len : Nat)
    (hW : W = 8 ∨ W = 16 ∨ W = 32 ∨ W = 64)
    (hbf : bf < 2 ^ W) (hs : start < W) (hl : len ≤ 63) :
    GETBITS bf start len = (bf >>> start) &&& (2 ^ len - 1) ∧
    BITMASK len = 2 ^ len - 1 ∧
    GETBITS 0b11010110 1 4 = 0b1011 := by
  refine ⟨?_, BITMASK_eq len, by decide⟩
  rw [GETBITS, BITMASK_eq]

theorem C7_getbits_witness :
    GETBITS 0b11010110 1 4 = (0b11010110 >>> 1) &&& (2 ^ 4 - 1) ∧
    BITMASK 4 = 2 ^ 4 - 1 ∧
    GETBITS 0b11010110 1 4 = 0b1011 :=
  C7_getbits 8 0b11010110 1 4 (Or.inl rfl) (by decide) (by decide) (by decide)

/-- C6: `ParseBits` starts from 0 and, for each character left to right,
shifts the accumulator left by one and ORs in 1 exactly when the character is
`'1'` (any other character contributes 0 and raises no error); the empty
string yields 0, `ParseBits("1011") = 11` and `ParseBits("00001111") = 15`. -/
theorem C6_parsebits (W : Nat) (s : List Char) (c : Char) :
    BITS W [] = 0 ∧
    BITS W (s ++ [c]) =
      (((BITS W s <<< 1) % 2 ^ W) ||| (if c = '1' then 1 else 0)) % 2 ^ W ∧
    BITS 64 ['1', '0', '1', '1'] = 11 ∧
    BITS 64 ['0', '0', '0', '0', '1', '1', '1', '1'] = 15 := by
  refine ⟨rfl, ?_, by decide, by decide⟩
  simp [BITS, List.foldl_append]

theorem ISSET_eq_testBit (bf i : Nat) : ISSET bf i = bf.testBit (i % 64) := by
  rw [ISSET, BIT_eq_pow, Nat.and_two_pow]
  cases h : bf.testBit (i % 64) <;> simp [h]

/-- C4: applying `ToggleBit` twice with the same index restores the original
value of a bitfield of any declared width, for every index. -/
theorem C4_togglebit_involution (W bf i : Nat)
    (hW : W = 8 ∨ W = 16 ∨ W = 32 ∨ W = 64) (hbf : bf < 2 ^ W) :
    TOGGLEBIT W (TOGGLEBIT W bf i) i = bf := by
  have hW64 : W ≤ 64 := by rcases hW with h | h | h | h <;> omega
  apply Nat.eq_of_testBit_eq
  intro j
  by_cases hj : j < W
  · simp [TOGGLEBIT, Nat.testBit_mod_two_pow, Nat.testBit_xor, hj, Bool.xor_assoc]
  · have h1 : bf.testBit j = false := testBit_of_lt_width hbf (Nat.le_of_not_lt hj)
    simp [TOGGLEBIT, Nat.testBit_mod_two_pow, hj, h1]

theorem C4_togglebit_involution_witness : TOGGLEBIT 8 (TOGGLEBIT 8 5 3) 3 = 5 :=
  C4_togglebit_involution 8 5 3 (Or.inl rfl) (by decide)

theorem or_mod_idem (W V x : Nat) :
    ((x ||| V) % 2 ^ W ||| V) % 2 ^ W = (x ||| V) % 2 ^ W := by
  apply Nat.eq_of_testBit_eq
  intro j
  by_cases hj : j < W <;>
    simp [Nat.testBit_mod_two_pow, Nat.testBit_lor, hj, Bool.or_assoc]

theorem and_mod_idem (W C x : Nat) :
    ((x &&& C) % 2 ^ W &&& C) % 2 ^ W = (x &&& C) % 2 ^ W := by
  apply Nat.eq_of_testBit_eq
  intro j
  by_cases hj : j < W <;>
    simp [Nat.testBit_mod_two_pow, Nat.testBit_land, hj, Bool.and_assoc]

theorem bool_and_or_absorb (a c v : Bool) :
    ((((a && c) || v) && c) || v) = ((a && c) || v) := by
  cases a <;> cases c <;> cases v <;> rfl

theorem and_or_mod_idem (W C V x : Nat) :
    ((((x &&& C) ||| V) % 2 ^ W &&& C) ||| V) % 2 ^ W =
      ((x &&& C) ||| V) % 2 ^ W := by
  apply Nat.eq_of_testBit_eq
  intro j
  by_cases hj : j < W
  · simp only [Nat.testBit_mod_two_pow, Nat.testBit_lor, Nat.testBit_land, hj,
      decide_True, Bool.true_and]
    exact bool_and_or_absorb _ _ _
  · simp [Nat.testBit_mod_two_pow, hj]

/-- C8: `SetBit`, `ClearBit`, `ClearBits` and `SetBits` with fixed arguments
are idempotent: a second identical invocation leaves the value unchanged. -/
theorem C8_idempotence (W bf i s l v : Nat) :
    SETBIT W (SETBIT W bf i) i = SETBIT W bf i ∧
    CLEARBIT W (CLEARBIT W bf i) i = CLEARBIT W bf i ∧
    CLEARBITS W (CLEARBITS W bf s l) s l = CLEARBITS W bf s l ∧
    SETBITS W (SETBITS W bf s l v) s l v = SETBITS W bf s l v := by
  refine ⟨?_, ?_, ?_, ?_⟩
  · simp only [SETBIT]
    exact or_mod_idem W (BIT i) bf
  · simp only [CLEARBIT, NULLBIT]
    exact and_mod_idem W _ bf
  · simp only [CLEARBITS]
    exact and_mod_idem W _ bf
  · simp only [SETBITS]
    exact and_or_mod_idem W _ _ bf

/-- C9: on a bitfield of declared width `W`, each of `SetBit`, `ClearBit` and
`ToggleBit` changes at most the single bit at position `i mod 64`: every other
bit position keeps its value. -/
theorem C9_single_bit_frame (W bf i j : Nat)
    (hW : W = 8 ∨ W = 16 ∨ W = 32 ∨ W = 64) (hbf : bf < 2 ^ W)
    (hj : j ≠ i % 64) :
    (SETBIT W bf i).testBit j = bf.testBit j ∧
    (CLEARBIT W bf i).testBit j = bf.testBit j ∧
    (TOGGLEBIT W bf i).testBit j = bf.testBit j := by
  have hW64 : W ≤ 64 := by rcases hW with h | h | h | h <;> omega
  have hne : i % 64 ≠ j := Ne.symm hj
  by_cases hjW : j < W
  · have hj64 : j < 64 := lt_of_lt_of_le hjW hW64
    refine ⟨?_, ?_, ?_⟩ <;>
      · simp only [SETBIT, CLEARBIT, NULLBIT, TOGGLEBIT, Nat.testBit_mod_two_pow,
          Nat.testBit_lor, Nat.testBit_land, Nat.testBit_xor, testBit_BIT,
          Nat.testBit_two_pow_sub_one]
        simp [hjW, hj64, hne]
  · have h1 : bf.testBit j = false := testBit_of_lt_width hbf (Nat.le_of_not_lt hjW)
    refine ⟨?_, ?_, ?_⟩ <;>
      simp [SETBIT, CLEARBIT, NULLBIT, TOGGLEBIT, Nat.testBit_mod_two_pow, hjW, h1]

theorem C9_single_bit_frame_witness :
    (SETBIT 8 5 3).testBit 0 = (5 : Nat).testBit 0 ∧
    (CLEARBIT 8 5 3).testBit 0 = (5 : Nat).testBit 0 ∧
    (TOGGLEBIT 8 5 3).testBit 0 = (5 : Nat).testBit 0 :=
  C9_single_bit_frame 8 5 3 0 (Or.inl rfl) (by decide) (by decide)

/-- C1 as stated is false: on a width-8 operand, `SetBit` with index 8 is a
silent no-op (the 64-bit mask bit falls outside the 8-bit width), so `IsSet`
afterwards is still false. -/
theorem C1_counterexample :
    SETBIT 8 0 8 = 0 ∧ ¬ ISSET (SETBIT 8 0 8) 8 = true := by decide

/-- C1 amended: after `ClearBit(bf, i)` the predicate `IsSet(bf, i)` is false
for every index `i`; after `SetBit(bf, i)` the predicate `IsSet(bf, i)` is
true provided `i mod 64 < W` (for `i mod 64 ≥ W` the set is a silent no-op on
the narrower width and `IsSet` stays false). -/
theorem C1_amended (W bf i : Nat)
    (hW : W = 8 ∨ W = 16 ∨ W = 32 ∨ W = 64) (hbf : bf < 2 ^ W) :
    (i % 64 < W → ISSET (SETBIT W bf i) i = true) ∧
    ISSET (NULLBIT W bf i) i = false := by
  have him : i % 64 < 64 := Nat.mod_lt _ (by norm_num)
  constructor
  · intro hiW
    rw [ISSET_eq_testBit, SETBIT, Nat.testBit_mod_two_pow]
    simp [Nat.testBit_lor, testBit_BIT, hiW]
  · rw [ISSET_eq_testBit, NULLBIT, Nat.testBit_mod_two_pow]
    simp only [Nat.testBit_land, Nat.testBit_xor, testBit_BIT,
      Nat.testBit_two_pow_sub_one]
    simp [him]

theorem C1_amended_witness :
    ISSET (SETBIT 8 0 3) 3 = true ∧ ISSET (NULLBIT 8 0 3) 3 = false :=
  ⟨(C1_amended 8 0 3 (Or.inl rfl) (by decide)).1 (by decide),
   (C1_amended 8 0 3 (Or.inl rfl) (by decide)).2⟩

theorem SETBITS_testBit (W bf s l v : Nat) (hW : W ≤ 64) (j : Nat) :
    (SETBITS W bf s l v).testBit j =
      (decide (j < W) &&
        if s ≤ j ∧ j < s + l then v.testBit (j - s) else bf.testBit j) := by
  by_cases hjW : j < W
  · have hj64 : j < 64 := lt_of_lt_of_le hjW hW
    simp only [SETBITS, Nat.testBit_mod_two_pow, Nat.testBit_lor, Nat.testBit_land,
      Nat.testBit_xor, Nat.testBit_shiftLeft, testBit_BITMASK,
      Nat.testBit_two_pow_sub_one, ge_iff_le]
    by_cases hsj : s ≤ j
    · by_cases hjl : j < s + l
      · have hls : j - s < l := by omega
        simp [hjW, hj64, hsj, hjl, hls]
      · have hls : ¬ j - s < l := by omega
        simp [hjW, hj64, hsj, hjl, hls]
    · simp [hjW, hj64, hsj]
  · simp [SETBITS, Nat.testBit_mod_two_pow, hjW]

theorem CLEARBITS_testBit (W bf s l : Nat) (hW : W ≤ 64) (j : Nat) :
    (CLEARBITS W bf s l).testBit j =
      (decide (j < W) && if s ≤ j ∧ j < s + l then false else bf.testBit j) := by
  have h : CLEARBITS W bf s l = SETBITS W bf s l 0 := by
    simp [CLEARBITS, SETBITS, Nat.zero_and, Nat.zero_shiftLeft]
  rw [h, SETBITS_testBit W bf s l 0 hW j]
  simp

/-- C3: `SetBits(bf, s, l, v)` (for `s + l` within the operand width and
`l ≤ 63`) produces a value whose `l`-bit field at position `s` is the low `l`
bits of `v` (excess high bits of `v` are discarded), every bit outside
`[s, s + l)` is unchanged, and `SetBits(ClearBits(bf, s, l), s, l, v)` equals
that same result. -/
theorem C3_setbits_field (W bf s l v : Nat)
    (hW : W = 8 ∨ W = 16 ∨ W = 32 ∨ W = 64) (hbf : bf < 2 ^ W)
    (hsl : s + l ≤ W) (hl : l ≤ 63) :
    GETBITS (SETBITS W bf s l v) s l = v % 2 ^ l ∧
    (∀ j, j < s ∨ s + l ≤ j → (SETBITS W bf s l v).testBit j = bf.testBit j) ∧
    SETBITS W (CLEARBITS W bf s l) s l v = SETBITS W bf s l v := by
  have hW64 : W ≤ 64 := by rcases hW with h | h | h | h <;> omega
  refine ⟨?_, ?_, ?_⟩
  · apply Nat.eq_of_testBit_eq
    intro j
    rw [GETBITS]
    simp only [Nat.testBit_land, Nat.testBit_shiftRight, testBit_BITMASK,
      Nat.testBit_mod_two_pow, SETBITS_testBit W bf s l v hW64]
    by_cases hjl : j < l
    · have h1 : s + j < W := by omega
      have h2 : s ≤ s + j := by omega
      have h3 : s + j < s + l := by omega
      have h4 : s + j - s = j := by omega
      simp [hjl, h1, h2, h3, h4]
    · simp [hjl]
  · intro j hj
    rw [SETBITS_testBit W bf s l v hW64 j]
    have hcond : ¬ (s ≤ j ∧ j < s + l) := by rcases hj with h | h <;> omega
    by_cases hjW : j < W
    · simp [hjW, hcond]
    · simp [hjW, testBit_of_lt_width hbf (Nat.le_of_not_lt hjW)]
  · apply Nat.eq_of_testBit_eq
    intro j
    rw [SETBITS_testBit W (CLEARBITS W bf s l) s l v hW64 j,
      SETBITS_testBit W bf s l v hW64 j, CLEARBITS_testBit W bf s l hW64 j]
    by_cases hcond : s ≤ j ∧ j < s + l
    · simp [hcond]
    · by_cases hjW : j < W <;> simp [hcond, hjW]

theorem C3_setbits_field_witness :
    GETBITS (SETBITS 8 0 2 3 5) 2 3 = 5 % 2 ^ 3 ∧
    (SETBITS 8 0 2 3 5).testBit 0 = (0 : Nat).testBit 0 ∧
    SETBITS 8 (CLEARBITS 8 0 2 3) 2 3 5 = SETBITS 8 0 2 3 5 :=
  ⟨(C3_setbits_field 8 0 2 3 5 (Or.inl rfl) (by decide) (by decide) (by decide)).1,
   (C3_setbits_field 8 0 2 3 5 (Or.inl rfl) (by decide) (by decide) (by decide)).2.1
     0 (Or.inl (by decide)),
   (C3_setbits_field 8 0 2 3 5 (Or.inl rfl) (by decide) (by decide) (by decide)).2.2⟩

theorem onesAux_eq_sum (f : Nat) :
    ∀ v, onesAux f v = ∑ i ∈ Finset.range f, (if v.testBit i then 1 else 0) := by
  induction f with
  | zero => intro v; simp [onesAux]
  | succ f ih =>
    intro v
    have h0 : (if v.testBit 0 then (1 : Nat) else 0) = v % 2 := by
      rcases Nat.mod_two_eq_zero_or_one v with h | h <;> simp [Nat.testBit_zero, h]
    simp only [onesAux]
    rw [ih (v / 2), Finset.sum_range_succ', h0]
    simp only [Nat.testBit_div_two]
    exact Nat.add_comm _ _

theorem ONES_eq_card (W v : Nat) (hW : W ≤ 64) (hv : v < 2 ^ W) :
    ONES v = ((Finset.range W).filter (fun i => v.testBit i)).card := by
  rw [ONES, onesAux_eq_sum, Finset.card_filter]
  symm
  apply Finset.sum_subset (Finset.range_subset.mpr hW)
  intro i _ hi
  simp only [Finset.mem_range, not_lt] at hi
  simp [testBit_of_lt_width hv hi]

/-- C5: for a value of declared width `W`, `Ones` counts the 1-bits among the
`W` bits of the value and `Zeros` is `W` minus that count; hence
`Ones(bf) + Zeros(bf) = W`, `Ones(0) = 0`, and `Ones` of the all-ones value
of width `W` is `W`. -/
theorem C5_ones_zeros (W bf : Nat)
    (hW : W = 8 ∨ W = 16 ∨ W = 32 ∨ W = 64) (hbf : bf < 2 ^ W) :
    ONES bf = ((Finset.range W).filter (fun i => bf.testBit i)).card ∧
    ZEROS W bf = W - ONES bf ∧
    ONES bf + ZEROS W bf = W ∧
    ONES 0 = 0 ∧
    ONES (2 ^ W - 1) = W := by
  have hW64 : W ≤ 64 := by rcases hW with h | h | h | h <;> omega
  have hcard := ONES_eq_card W bf hW64 hbf
  have hle : ONES bf ≤ W := by
    rw [hcard]
    exact le_trans (Finset.card_filter_le _ _) (le_of_eq (Finset.card_range W))
  refine ⟨hcard, rfl, ?_, by decide, ?_⟩
  · rw [ZEROS]
    omega
  · rcases hW with h | h | h | h <;> subst h <;> decide

theorem C5_ones_zeros_witness :
    ONES 5 = ((Finset.range 8).filter (fun i => (5 : Nat).testBit i)).card ∧
    ZEROS 8 5 = 8 - ONES 5 ∧
    ONES 5 + ZEROS 8 5 = 8 ∧
    ONES 0 = 0 ∧
    ONES (2 ^ 8 - 1) = 8 :=
  C5_ones_zeros 8 5 (Or.inl rfl) (by decide)
